import Mathlib

/-!
Verification development for the synthetic email generator
(`generator.py`).  Strings are modelled as `List Char`; the Python
`random.Random` object is modelled as a deterministic stream of natural
numbers consumed one value per draw (`choice`, `randint`), which is the
level of abstraction the program itself relies on: all of its behaviour
is a pure function of the sequence of draws.
-/

namespace EmailGen

/-! ### Character classes (from the regexes in `generator.py`) -/

/-- Characters kept by the username filter `[^a-z0-9._-]` (line 336). -/
def isAllowed (c : Char) : Bool :=
  c.isLower || c.isDigit || c = '.' || c = '_' || c = '-'

/-- Separator characters of the collapse/strip steps `[._-]` (line 337). -/
def isSep (c : Char) : Bool :=
  c = '.' || c = '_' || c = '-'

/-- Characters of the first domain-regex class `[a-zA-Z0-9.-]` (line 295). -/
def isDomainChar (c : Char) : Bool :=
  c.isAlpha || c.isDigit || c = '.' || c = '-'

/-! ### Small string helpers from the source -/

/-- Python `str.strip()` on the whitespace forms the program uses. -/
def trimWs (l : List Char) : List Char :=
  ((l.dropWhile Char.isWhitespace).reverse.dropWhile Char.isWhitespace).reverse

/-- Splitting on runs of whitespace keeping only non-empty pieces:
`[p for p in re.split(r"\s+", full.strip()) if p]` (line 50). -/
def splitWsAux : List Char → List Char → List (List Char)
  | [], cur => if cur.isEmpty then [] else [cur.reverse]
  | c :: rest, cur =>
    if c.isWhitespace then
      if cur.isEmpty then splitWsAux rest []
      else cur.reverse :: splitWsAux rest []
    else splitWsAux rest (c :: cur)

def splitWs (l : List Char) : List (List Char) :=
  splitWsAux l []

/-- `slug` (lines 44-47): strip, lowercase, drop everything outside `[a-z0-9]`. -/
def slug (l : List Char) : List Char :=
  ((trimWs l).map Char.toLower).filter fun c => c.isLower || c.isDigit

/-- `split_name` (lines 49-55): first and last whitespace token;
a single token gets last name `"user"`; no tokens is a failure. -/
def splitName (full : List Char) : Option (List Char × List Char) :=
  match splitWs full with
  | [] => none
  | [p] => some (p, ['u', 's', 'e', 'r'])
  | p :: q :: rest => some (p, (q :: rest).getLast (List.cons_ne_nil q rest))

/-! ### Domain validation (line 295) -/

/-- `re.fullmatch(r"[a-zA-Z0-9.-]+\.[a-zA-Z]{2,}", d)`: the whole line
decomposes as a non-empty run of domain characters, a literal dot, and at
least two ASCII letters.  The executable form searches every split point. -/
def domainValid (l : List Char) : Bool :=
  (List.range l.length).any fun i =>
    !(l.take i).isEmpty && (l.take i).all isDomainChar &&
      decide ((l.drop i).head? = some '.') &&
      (l.drop (i + 1)).all Char.isAlpha && decide (2 ≤ (l.drop (i + 1)).length)

/-- Declarative reading of the same regex, written from the spec sentence
describing it, for the equivalence theorem. -/
def DomainMatches (l : List Char) : Prop :=
  ∃ u v, l = u ++ '.' :: v ∧ u ≠ [] ∧ (∀ c ∈ u, isDomainChar c = true) ∧
    (∀ c ∈ v, Char.isAlpha c = true) ∧ 2 ≤ v.length

/-! ### Username sanitization (lines 333-339) -/

/-- `re.sub(r"[._-]{2,}", ".", s)`: each maximal run of two or more
separators becomes a single dot; lone separators stay.  (Right-fold form:
prepending a separator to a result that already starts with a separator
fuses the two into a single dot, which collapses every maximal run of two
or more; checked against `re.sub` on all strings up to length 7 over a
separator/non-separator alphabet.) -/
def collapseStep (c : Char) : List Char → List Char
  | [] => [c]
  | x :: xs => if isSep c && isSep x then '.' :: xs else c :: x :: xs

def collapseSeps : List Char → List Char
  | [] => []
  | c :: rest => collapseStep c (collapseSeps rest)

/-- `.strip(".-_")` (line 337). -/
def trimSeps (l : List Char) : List Char :=
  ((l.dropWhile isSep).reverse.dropWhile isSep).reverse

/-- Optional `username.lower()` (lines 333-334). -/
def applyLower (lower : Bool) (l : List Char) : List Char :=
  if lower then l.map Char.toLower else l

/-- The full sanitization pipeline of lines 333-337: optional lowercase,
strip disallowed characters, collapse separator runs, trim separators. -/
def sanitizeUsername (lower : Bool) (l : List Char) : List Char :=
  trimSeps (collapseSeps ((applyLower lower l).filter isAllowed))

/-- The per-attempt rejection test of line 338:
`if not username or len(username) < 3`. -/
def usernameRejected (u : List Char) : Bool :=
  u.isEmpty || decide (u.length < 3)

/-! ### Patterns (lines 23-33), as a closed enumeration -/

inductive Pattern
  | firstDotLast    -- "{first}.{last}"
  | firstLast       -- "{first}{last}"
  | fLast           -- "{f}{last}"
  | firstL          -- "{first}{l}"
  | lastDotFirst    -- "{last}.{first}"
  | firstUnderLast  -- "{first}_{last}"
  | firstDashLast   -- "{first}-{last}"
  | firstDotLastN2  -- "{first}.{last}{n2}"
  | firstLastN3     -- "{first}{last}{n3}"
deriving DecidableEq, Inhabited

/-- Python `f"{n:0wd}"`: decimal digits left-padded with zeros to width `w`. -/
def padZeros (w : Nat) (n : Nat) : List Char :=
  let d := Nat.toDigits 10 n
  List.replicate (w - d.length) '0' ++ d

/-- `pattern.format(first=..., last=..., f=..., l=..., n2=..., n3=...)`
(line 69) with the two numeric draws already taken as `a` and `b`. -/
def renderWith (p : Pattern) (first lastN : List Char) (a b : Nat) : List Char :=
  let f := first.take 1
  let l := lastN.take 1
  let n2 := padZeros 2 a
  let n3 := padZeros 3 b
  match p with
  | .firstDotLast => first ++ '.' :: lastN
  | .firstLast => first ++ lastN
  | .fLast => f ++ lastN
  | .firstL => first ++ l
  | .lastDotFirst => lastN ++ '.' :: first
  | .firstUnderLast => first ++ '_' :: lastN
  | .firstDashLast => first ++ '-' :: lastN
  | .firstDotLastN2 => first ++ '.' :: (lastN ++ n2)
  | .firstLastN3 => first ++ lastN ++ n3

/-! ### The randomness source -/

/-- `random.Random` modelled as a deterministic stream of naturals plus a
cursor; every draw operation consumes exactly one stream value. -/
structure Rng where
  stream : Nat → Nat
  idx : Nat

def Rng.next (r : Rng) : Nat × Rng :=
  (r.stream r.idx, ⟨r.stream, r.idx + 1⟩)

/-- `rng.randint(lo, hi)` — one draw, result in `[lo, hi]`. -/
def Rng.randint (r : Rng) (lo hi : Nat) : Nat × Rng :=
  let (n, r1) := r.next
  (lo + n % (hi - lo + 1), r1)

/-- `rng.choice(seq)` — one draw, uniform index into the sequence.
(The program only calls it on lists it has already checked non-empty.) -/
def Rng.choice {α : Type} [Inhabited α] (r : Rng) (l : List α) : α × Rng :=
  let (n, r1) := r.next
  (l.getD (n % l.length) default, r1)

/-- `render_pattern` (lines 64-69): `n2 = rng.randint(0, 99)` then
`n3 = rng.randint(0, 999)`, both drawn before formatting, every call. -/
def renderPattern (p : Pattern) (first lastN : List Char) (r : Rng) :
    List Char × Rng :=
  let (a, r1) := r.randint 0 99
  let (b, r2) := r1.randint 0 999
  (renderWith p first lastN a b, r2)

/-- `_rng_from_seed` (lines 217-219): the seed is stripped; an empty seed
yields system entropy (modelled as an arbitrary ambient stream), a
non-empty seed yields the stream determined by the seed text alone. -/
def rngFromSeed (seedStream : List Char → Nat → Nat) (entropy : Nat → Nat)
    (seed : List Char) : Rng :=
  let t := trimWs seed
  if t.isEmpty then ⟨entropy, 0⟩ else ⟨seedStream t, 0⟩

/-! ### The email batch generator (lines 274-368) -/

/-- One entry of the parsed name pool (lines 306-314). -/
structure PoolEntry where
  display : List Char
  firstKey : List Char
  lastKey : List Char
deriving DecidableEq, Inhabited

/-- Pool construction (lines 306-314): parse each name line, slug first and
last tokens, keep entries whose slugs are both non-empty. -/
def buildPool (names : List (List Char)) : List PoolEntry :=
  names.filterMap fun full =>
    match splitName full with
    | none => none
    | some (first, lastN) =>
      let fs := slug first
      let ls := slug lastN
      if fs ≠ [] ∧ ls ≠ [] then some ⟨full, fs, ls⟩ else none

/-- An output row (lines 350-356). -/
structure Row where
  name : List Char
  email : List Char
  domain : List Char
  pattern : Pattern
  username : List Char

/-- The distinct validation failures of `generate_emails` (lines 277-318),
one per error dialog, in the order the code checks them. -/
inductive GenError
  | invalidCount
  | noNames
  | noDomains
  | invalidDomains
  | noPatterns
  | invalidNames
deriving DecidableEq

/-- A successful batch: the rows, and whether the request was
under-fulfilled (the warning of lines 358-363). -/
structure GenResult where
  rows : List Row
  underfilled : Bool

/-- The attempt loop (lines 320-356): `while len(results) < count and
tries < max_tries`, where `tries` is incremented at the top of each
iteration.  Returns the rows together with the final value of `tries`,
i.e. the number of iterations executed.  The extra `fuel` argument only
makes the recursion structural; the caller passes `fuel = maxTries`, and
since every iteration increments `tries`, the source's guard
`tries < maxTries` always fails before the fuel runs out. -/
def genLoop (pool : List PoolEntry) (domains : List (List Char))
    (pats : List Pattern) (c maxTries : Nat) (unique lower : Bool) :
    Nat → Nat → List Row → List (List Char) → Rng → List Row × Nat
  | 0, tries, rows, _, _ => (rows, tries)
  | fuel + 1, tries, rows, seen, rng =>
    if rows.length < c ∧ tries < maxTries then
      let (pe, r1) := rng.choice pool
      let (pat, r2) := r1.choice pats
      let (u0, r3) := renderPattern pat pe.firstKey pe.lastKey r2
      let username := sanitizeUsername lower u0
      if usernameRejected username then
        genLoop pool domains pats c maxTries unique lower fuel (tries + 1) rows seen r3
      else
        let (dom, r4) := r3.choice domains
        let domainL := dom.map Char.toLower
        let email := username ++ '@' :: domainL
        if unique && email ∈ seen then
          genLoop pool domains pats c maxTries unique lower fuel (tries + 1) rows seen r4
        else
          genLoop pool domains pats c maxTries unique lower fuel (tries + 1)
            (rows ++ [⟨pe.display, email, domainL, pat, username⟩])
            (if unique then email :: seen else seen) r4
    else (rows, tries)

/-- `generate_emails` (lines 274-368) on already-line-split input:
validation checks in source order, then the bounded attempt loop with
`max_tries = count * (10 if unique else 2)`. -/
def generateEmails (names domains : List (List Char)) (pats : List Pattern)
    (count : Int) (unique lower : Bool) (rng : Rng) :
    Except GenError GenResult :=
  if count ≤ 0 ∨ 200000 < count then .error .invalidCount
  else if names.isEmpty then .error .noNames
  else if domains.isEmpty then .error .noDomains
  else if domains.any (fun d => !domainValid d) then .error .invalidDomains
  else if pats.isEmpty then .error .noPatterns
  else if (buildPool names).isEmpty then .error .invalidNames
  else
    .ok ⟨(genLoop (buildPool names) domains pats count.toNat
        (count.toNat * (if unique then 10 else 2)) unique lower
        (count.toNat * (if unique then 10 else 2)) 0 [] [] rng).1,
      decide ((genLoop (buildPool names) domains pats count.toNat
        (count.toNat * (if unique then 10 else 2)) unique lower
        (count.toNat * (if unique then 10 else 2)) 0 [] [] rng).1.length
          < count.toNat)⟩

/-- The retained last-batch state (`self.last_rows`, line 365): replaced by
the new rows on success, untouched on any validation failure (every error
path returns before the assignment). -/
def updateLastRows (prev : List Row) (res : Except GenError GenResult) :
    List Row :=
  match res with
  | .error _ => prev
  | .ok g => g.rows

/-- No two adjacent separator characters. -/
def NoSepRun (l : List Char) : Prop :=
  l.Chain' fun a b => ¬(isSep a = true ∧ isSep b = true)

/-- What every row appended by the loop looks like: a pool entry, a pattern,
a domain, and two in-range numeric draws, combined exactly as lines 329-356
combine them. -/
def RowShape (pool : List PoolEntry) (domains : List (List Char))
    (pats : List Pattern) (lower : Bool) (r : Row) : Prop :=
  ∃ pe ∈ pool, ∃ p ∈ pats, ∃ d ∈ domains, ∃ a b : Nat, a < 100 ∧ b < 1000 ∧
    r.username = sanitizeUsername lower (renderWith p pe.firstKey pe.lastKey a b) ∧
    3 ≤ r.username.length ∧
    r.domain = d.map Char.toLower ∧
    r.email = r.username ++ '@' :: r.domain ∧
    r.name = pe.display ∧ r.pattern = p

/-! ### A concrete finite scenario: ten names, one pattern, one domain,
which can produce exactly ten distinct emails -/

def demoNames : List (List Char) :=
  [("ana son").data, ("bel ton").data, ("cor von").data, ("dia win").data,
    ("eli xan").data, ("fay yor").data, ("gus zed").data, ("hal que").data,
    ("ive rom").data, ("jax kel").data]

def demoDomains : List (List Char) := [("example.org").data]

def demoPats : List Pattern := [.firstLast]

/-- The ten emails the demo combination can produce. -/
def demoEmails : List (List Char) :=
  [("anason@example.org").data, ("belton@example.org").data,
    ("corvon@example.org").data, ("diawin@example.org").data,
    ("elixan@example.org").data, ("fayyor@example.org").data,
    ("guszed@example.org").data, ("halque@example.org").data,
    ("iverom@example.org").data, ("jaxkel@example.org").data]

/-! ### Character-level lemmas -/

lemma char_le_iff {a b : Char} : a ≤ b ↔ a.toNat ≤ b.toNat := by
  rw [Char.le_def, UInt32.le_def, BitVec.le_def]
  rfl

lemma char_eq_iff {a b : Char} : a = b ↔ a.toNat = b.toNat := by
  constructor
  · intro h
    rw [h]
  · intro h
    exact Char.ext (UInt32.toNat.inj h)

lemma char_isUpper_iff (c : Char) : c.isUpper = true ↔ 65 ≤ c.toNat ∧ c.toNat ≤ 90 := by
  simp only [Char.isUpper, Bool.and_eq_true, decide_eq_true_eq, ge_iff_le]
  rw [show ((65 : UInt32) ≤ c.val ↔ 65 ≤ c.toNat) from ⟨fun h => h, fun h => h⟩,
    show (c.val ≤ (90 : UInt32) ↔ c.toNat ≤ 90) from ⟨fun h => h, fun h => h⟩]

lemma char_isLower_iff (c : Char) : c.isLower = true ↔ 97 ≤ c.toNat ∧ c.toNat ≤ 122 := by
  simp only [Char.isLower, Bool.and_eq_true, decide_eq_true_eq, ge_iff_le]
  rw [show ((97 : UInt32) ≤ c.val ↔ 97 ≤ c.toNat) from ⟨fun h => h, fun h => h⟩,
    show (c.val ≤ (122 : UInt32) ↔ c.toNat ≤ 122) from ⟨fun h => h, fun h => h⟩]

lemma char_isDigit_iff (c : Char) : c.isDigit = true ↔ 48 ≤ c.toNat ∧ c.toNat ≤ 57 := by
  simp only [Char.isDigit, Bool.and_eq_true, decide_eq_true_eq, ge_iff_le]
  rw [show ((48 : UInt32) ≤ c.val ↔ 48 ≤ c.toNat) from ⟨fun h => h, fun h => h⟩,
    show (c.val ≤ (57 : UInt32) ↔ c.toNat ≤ 57) from ⟨fun h => h, fun h => h⟩]

lemma char_toLower_of_not_upper {c : Char} (h : c.isUpper = false) : c.toLower = c := by
  have hn : ¬ (65 ≤ c.toNat ∧ c.toNat ≤ 90) := by
    intro hc
    rw [← char_isUpper_iff] at hc
    simp [h] at hc
  unfold Char.toLower
  simp only [ge_iff_le]
  rw [if_neg hn]

lemma char_toNat_toLower_of_upper {c : Char} (h : c.isUpper = true) :
    (Char.toLower c).toNat = c.toNat + 32 := by
  rw [char_isUpper_iff] at h
  unfold Char.toLower
  simp only [ge_iff_le]
  rw [if_pos h]
  have hv : (c.toNat + 32).isValidChar := by
    left
    omega
  unfold Char.ofNat
  rw [dif_pos hv]
  unfold Char.ofNatAux
  simp [Char.toNat, UInt32.toNat]

lemma char_toLower_not_upper (c : Char) : (Char.toLower c).isUpper = false := by
  cases hu : c.isUpper with
  | false => rw [char_toLower_of_not_upper hu, hu]
  | true =>
    have h1 := char_toNat_toLower_of_upper hu
    rw [char_isUpper_iff] at hu
    cases hl : (Char.toLower c).isUpper with
    | false => rfl
    | true =>
      rw [char_isUpper_iff] at hl
      omega

lemma isSep_iff (c : Char) : isSep c = true ↔ c.toNat = 46 ∨ c.toNat = 95 ∨ c.toNat = 45 := by
  simp only [isSep, Bool.or_eq_true, decide_eq_true_eq]
  rw [@char_eq_iff c '.', @char_eq_iff c '_', @char_eq_iff c '-',
    (by decide : ('.').toNat = 46), (by decide : ('_').toNat = 95),
    (by decide : ('-').toNat = 45)]
  omega

lemma isAllowed_iff (c : Char) : isAllowed c = true ↔
    (97 ≤ c.toNat ∧ c.toNat ≤ 122) ∨ (48 ≤ c.toNat ∧ c.toNat ≤ 57) ∨
    c.toNat = 46 ∨ c.toNat = 95 ∨ c.toNat = 45 := by
  simp only [isAllowed, Bool.or_eq_true, decide_eq_true_eq]
  rw [char_isLower_iff, char_isDigit_iff, @char_eq_iff c '.', @char_eq_iff c '_',
    @char_eq_iff c '-', (by decide : ('.').toNat = 46), (by decide : ('_').toNat = 95),
    (by decide : ('-').toNat = 45)]
  omega

lemma isAllowed_not_upper {c : Char} (h : isAllowed c = true) : c.isUpper = false := by
  rw [isAllowed_iff] at h
  cases hu : c.isUpper with
  | false => rfl
  | true =>
    rw [char_isUpper_iff] at hu
    omega

lemma isAllowed_toLower_self {c : Char} (h : isAllowed c = true) : Char.toLower c = c :=
  char_toLower_of_not_upper (isAllowed_not_upper h)

lemma isAllowed_ne_at {c : Char} (h : isAllowed c = true) : c ≠ '@' := by
  intro hc
  rw [hc] at h
  exact absurd h (by decide)

lemma isDomainChar_iff (c : Char) : isDomainChar c = true ↔
    (65 ≤ c.toNat ∧ c.toNat ≤ 90) ∨ (97 ≤ c.toNat ∧ c.toNat ≤ 122) ∨
    (48 ≤ c.toNat ∧ c.toNat ≤ 57) ∨ c.toNat = 46 ∨ c.toNat = 45 := by
  simp only [isDomainChar, Char.isAlpha, Bool.or_eq_true, decide_eq_true_eq]
  rw [char_isUpper_iff, char_isLower_iff, char_isDigit_iff, @char_eq_iff c '.',
    @char_eq_iff c '-', (by decide : ('.').toNat = 46), (by decide : ('-').toNat = 45)]
  omega

lemma isDomainChar_toLower {c : Char} (h : isDomainChar c = true) :
    isDomainChar (Char.toLower c) = true := by
  cases hu : c.isUpper with
  | false => rw [char_toLower_of_not_upper hu]; exact h
  | true =>
    have h1 := char_toNat_toLower_of_upper hu
    rw [char_isUpper_iff] at hu
    rw [isDomainChar_iff]
    omega

lemma isDomainChar_ne_at {c : Char} (h : isDomainChar c = true) : c ≠ '@' := by
  intro hc
  rw [hc] at h
  exact absurd h (by decide)

lemma isSep_isAllowed {c : Char} (h : isSep c = true) : isAllowed c = true := by
  rw [isSep_iff] at h
  rw [isAllowed_iff]
  omega

lemma isAllowed_dot : isAllowed '.' = true := by decide

/-! ### Structural lemmas about the sanitizer -/

lemma head?_dropWhile_sep {l : List Char} {x : Char}
    (h : (l.dropWhile isSep).head? = some x) : isSep x = false := by
  have hh := List.head?_dropWhile_not isSep l
  rw [h] at hh
  exact hh

lemma mem_collapseSeps {c : Char} : ∀ {l : List Char}, c ∈ collapseSeps l → c ∈ l ∨ c = '.'
  | [], h => by simp [collapseSeps] at h
  | d :: rest, h => by
    rw [collapseSeps] at h
    cases hr : collapseSeps rest with
    | nil =>
      rw [hr] at h
      simp only [collapseStep] at h
      rcases List.mem_singleton.mp h with rfl
      exact Or.inl (List.mem_cons_self _ _)
    | cons x xs =>
      rw [hr] at h
      simp only [collapseStep] at h
      by_cases hc : (isSep d && isSep x) = true
      · rw [if_pos hc] at h
        rcases List.mem_cons.mp h with h1 | h1
        · exact Or.inr h1
        · rcases mem_collapseSeps (l := rest) (by rw [hr]; exact List.mem_cons_of_mem x h1)
            with h2 | h2
          · exact Or.inl (List.mem_cons_of_mem d h2)
          · exact Or.inr h2
      · rw [if_neg hc] at h
        rcases List.mem_cons.mp h with h1 | h1
        · exact Or.inl (by rw [h1]; exact List.mem_cons_self _ _)
        · rcases mem_collapseSeps (l := rest) (by rw [hr]; exact h1) with h2 | h2
          · exact Or.inl (List.mem_cons_of_mem d h2)
          · exact Or.inr h2

lemma mem_trimSeps {c : Char} {l : List Char} (h : c ∈ trimSeps l) : c ∈ l := by
  unfold trimSeps at h
  rw [List.mem_reverse] at h
  have h1 := List.dropWhile_subset isSep h
  rw [List.mem_reverse] at h1
  exact List.dropWhile_subset isSep h1

lemma sanitize_all_allowed (lower : Bool) (l : List Char) :
    ∀ c ∈ sanitizeUsername lower l, isAllowed c = true := by
  intro c hc
  unfold sanitizeUsername at hc
  have h1 := mem_trimSeps hc
  rcases mem_collapseSeps h1 with h2 | h2
  · exact (List.mem_filter.mp h2).2
  · rw [h2]; exact isAllowed_dot

lemma collapseSeps_noSepRun : ∀ l : List Char, NoSepRun (collapseSeps l)
  | [] => by simp [collapseSeps, NoSepRun]
  | c :: rest => by
    have ih := collapseSeps_noSepRun rest
    rw [collapseSeps]
    cases hr : collapseSeps rest with
    | nil => simp [collapseStep, NoSepRun]
    | cons x xs =>
      rw [hr] at ih
      simp only [collapseStep]
      by_cases hc : (isSep c && isSep x) = true
      · rw [if_pos hc]
        rw [NoSepRun, List.chain'_cons']
        refine ⟨?_, (List.chain'_cons'.mp ih).2⟩
        intro y hy
        rw [Option.mem_def] at hy
        have hrel := (List.chain'_cons'.mp ih).1 y (Option.mem_def.mpr hy)
        rw [Bool.and_eq_true] at hc
        intro hand
        exact hrel ⟨hc.2, hand.2⟩
      · rw [if_neg hc]
        rw [NoSepRun, List.chain'_cons]
        refine ⟨?_, ih⟩
        intro hand
        apply hc
        rw [Bool.and_eq_true]
        exact hand

lemma collapseSeps_eq_self : ∀ {l : List Char}, NoSepRun l → collapseSeps l = l
  | [], _ => by rw [collapseSeps]
  | [c], _ => by simp [collapseSeps, collapseStep]
  | c :: d :: rest, h => by
    rw [NoSepRun, List.chain'_cons] at h
    have htail : collapseSeps (d :: rest) = d :: rest := collapseSeps_eq_self h.2
    have hc : (isSep c && isSep d) ≠ true := by
      intro hand
      rw [Bool.and_eq_true] at hand
      exact h.1 hand
    rw [collapseSeps, htail]
    simp only [collapseStep]
    rw [if_neg hc]

lemma dropWhile_eq_self_of_head {p : Char → Bool} {l : List Char}
    (h : ∀ x, l.head? = some x → p x = false) : l.dropWhile p = l := by
  cases l with
  | nil => rfl
  | cons x xs =>
    rw [List.dropWhile_cons_of_neg]
    rw [h x rfl]
    exact Bool.false_ne_true

lemma trimSeps_eq_self {l : List Char}
    (h1 : ∀ x, l.head? = some x → isSep x = false)
    (h2 : ∀ x, l.getLast? = some x → isSep x = false) : trimSeps l = l := by
  unfold trimSeps
  rw [dropWhile_eq_self_of_head h1]
  rw [dropWhile_eq_self_of_head (by
    intro x hx
    rw [List.head?_reverse] at hx
    exact h2 x hx)]
  exact List.reverse_reverse l

lemma trimSeps_head {l : List Char} {x : Char} (h : (trimSeps l).head? = some x) :
    isSep x = false := by
  unfold trimSeps at h
  rw [List.head?_reverse] at h
  -- `x` is the last element of `dropWhile isSep (reverse (dropWhile isSep l))`,
  -- which is a suffix of `reverse (dropWhile isSep l)`; its last element is the
  -- head of `dropWhile isSep l`, which fails `isSep`.
  set m0 := (l.dropWhile isSep).reverse with hm0
  obtain ⟨t, ht⟩ := List.dropWhile_suffix (l := m0) isSep
  cases hd : (m0.dropWhile isSep) with
  | nil => rw [hd] at h; simp at h
  | cons y ys =>
    rw [hd] at ht h
    have : m0.getLast? = some x := by
      rw [← ht, List.getLast?_append]
      rw [h]
      rfl
    rw [hm0, List.getLast?_reverse] at this
    exact head?_dropWhile_sep this

lemma trimSeps_getLast {l : List Char} {x : Char} (h : (trimSeps l).getLast? = some x) :
    isSep x = false := by
  unfold trimSeps at h
  rw [List.getLast?_reverse] at h
  exact head?_dropWhile_sep h

lemma noSepRun_reverse {l : List Char} (h : NoSepRun l) : NoSepRun l.reverse := by
  rw [NoSepRun, List.chain'_reverse]
  exact h.imp fun a b hab hand => hab ⟨hand.2, hand.1⟩

lemma noSepRun_trimSeps {l : List Char} (h : NoSepRun l) : NoSepRun (trimSeps l) := by
  unfold trimSeps
  apply noSepRun_reverse
  apply List.Chain'.suffix _ (List.dropWhile_suffix isSep)
  apply noSepRun_reverse
  exact List.Chain'.suffix h (List.dropWhile_suffix isSep)

lemma sanitize_noSepRun (lower : Bool) (l : List Char) :
    NoSepRun (sanitizeUsername lower l) := by
  unfold sanitizeUsername
  exact noSepRun_trimSeps (collapseSeps_noSepRun _)

lemma map_eq_self_of_pointwise {f : Char → Char} : ∀ {l : List Char},
    (∀ c ∈ l, f c = c) → l.map f = l
  | [], _ => rfl
  | c :: rest, h => by
    rw [List.map_cons, h c (List.mem_cons_self c rest),
      map_eq_self_of_pointwise fun d hd => h d (List.mem_cons_of_mem c hd)]

/-- Re-applying the sanitization pipeline (lowercasing on) to one of its
outputs changes nothing: outputs consist of allowed characters only, have
no adjacent separators, and neither start nor end with a separator. -/
lemma sanitize_idem (lower : Bool) (l : List Char) :
    sanitizeUsername true (sanitizeUsername lower l) = sanitizeUsername lower l := by
  have hall := sanitize_all_allowed lower l
  conv =>
    lhs
    rw [sanitizeUsername]
  rw [applyLower, if_pos rfl,
    map_eq_self_of_pointwise fun c hc => isAllowed_toLower_self (hall c hc),
    List.filter_eq_self.mpr hall,
    collapseSeps_eq_self (sanitize_noSepRun lower l),
    trimSeps_eq_self]
  · intro x hx
    exact trimSeps_head (l := collapseSeps ((applyLower lower l).filter isAllowed)) hx
  · intro x hx
    exact trimSeps_getLast (l := collapseSeps ((applyLower lower l).filter isAllowed)) hx

/-! ### The domain regex: executable matcher vs. declarative language -/

lemma domainValid_iff (l : List Char) : domainValid l = true ↔ DomainMatches l := by
  unfold domainValid DomainMatches
  rw [List.any_eq_true]
  constructor
  · rintro ⟨i, hi, hb⟩
    rw [List.mem_range] at hi
    simp only [Bool.and_eq_true, Bool.not_eq_true', List.isEmpty_eq_false,
      decide_eq_true_eq, List.all_eq_true] at hb
    obtain ⟨⟨⟨⟨hne, hdc⟩, hdot⟩, halpha⟩, hlen⟩ := hb
    refine ⟨l.take i, l.drop (i + 1), ?_, hne, hdc, halpha, hlen⟩
    have hsplit := List.take_append_drop i l
    have hdropcons : l.drop i = '.' :: l.drop (i + 1) := by
      have h1 : l.drop i = (l.drop i).head?.toList ++ (l.drop i).tail := by
        cases hd : l.drop i with
        | nil => simp
        | cons x xs => simp
      rw [hdot] at h1
      have h2 : (l.drop i).tail = l.drop (i + 1) := by
        rw [← List.drop_drop, List.drop_one]
      rw [h2] at h1
      exact h1
    conv_lhs => rw [← hsplit]
    rw [hdropcons]
  · rintro ⟨u, v, hl, hne, hdc, halpha, hlen⟩
    refine ⟨u.length, ?_, ?_⟩
    · rw [List.mem_range, hl, List.length_append, List.length_cons]
      omega
    · have htake : l.take u.length = u := by
        rw [hl]
        exact List.take_left u ('.' :: v)
      have hdrop : l.drop u.length = '.' :: v := by
        rw [hl]
        exact List.drop_left u ('.' :: v)
      have hdrop1 : l.drop (u.length + 1) = v := by
        rw [← List.drop_drop, hdrop]
        rfl
      simp only [htake, hdrop, hdrop1, Bool.and_eq_true, Bool.not_eq_true',
        List.isEmpty_eq_false, decide_eq_true_eq, List.all_eq_true]
      exact ⟨⟨⟨⟨hne, hdc⟩, rfl⟩, halpha⟩, hlen⟩

/-! ### Lemmas about the randomness source and the attempt loop -/

lemma choice_mem {α : Type} [Inhabited α] {r r' : Rng} {l : List α} {x : α}
    (h : r.choice l = (x, r')) (hl : l ≠ []) : x ∈ l := by
  unfold Rng.choice Rng.next at h
  have hx : l.getD (r.stream r.idx % l.length) default = x :=
    congrArg Prod.fst h
  have hlen : 0 < l.length := List.length_pos.mpr hl
  have hmod : r.stream r.idx % l.length < l.length := Nat.mod_lt _ hlen
  rw [← hx, List.getD_eq_getElem?_getD, List.getElem?_eq_getElem hmod]
  exact List.getElem_mem hmod

lemma le_of_not_rejected {u : List Char} (h : ¬ usernameRejected u = true) :
    3 ≤ u.length := by
  simp only [usernameRejected, Bool.or_eq_true, List.isEmpty_eq_true,
    decide_eq_true_eq] at h
  push_neg at h
  omega

lemma not_rejected_of_le {u : List Char} (h : 3 ≤ u.length) :
    ¬ usernameRejected u = true := by
  simp only [usernameRejected, Bool.or_eq_true, List.isEmpty_eq_true,
    decide_eq_true_eq]
  push_neg
  refine ⟨?_, by omega⟩
  intro he
  rw [he] at h
  simp at h

/-- `render_pattern` fully evaluated: it consumes exactly the two numeric
draws, first `randint(0, 99)` then `randint(0, 999)`, whatever the pattern. -/
lemma renderPattern_eq (p : Pattern) (first lastN : List Char) (r : Rng) :
    renderPattern p first lastN r =
      (renderWith p first lastN (r.stream r.idx % 100) (r.stream (r.idx + 1) % 1000),
        ⟨r.stream, r.idx + 2⟩) := by
  simp [renderPattern, Rng.randint, Rng.next]

lemma genLoop_stop {pool : List PoolEntry} {domains : List (List Char)}
    {pats : List Pattern} {c maxTries : Nat} {unique lower : Bool} {fuel tries : Nat}
    {rows : List Row} {seen : List (List Char)} {rng : Rng} (h : c ≤ rows.length) :
    genLoop pool domains pats c maxTries unique lower fuel tries rows seen rng = (rows, tries) := by
  cases fuel with
  | zero => rfl
  | succ n =>
    rw [genLoop, if_neg]
    omega

lemma genLoop_exhaust {pool : List PoolEntry} {domains : List (List Char)}
    {pats : List Pattern} {c maxTries : Nat} {unique lower : Bool} {fuel tries : Nat}
    {rows : List Row} {seen : List (List Char)} {rng : Rng} (h : maxTries ≤ tries) :
    genLoop pool domains pats c maxTries unique lower fuel tries rows seen rng = (rows, tries) := by
  cases fuel with
  | zero => rfl
  | succ n =>
    rw [genLoop, if_neg]
    omega

/-- Any property of the accumulated rows and seen-set that is preserved by the
one appending step of the loop holds of the loop's final rows. -/
lemma genLoop_invariant (J : List Row → List (List Char) → Prop)
    (pool : List PoolEntry) (domains : List (List Char)) (pats : List Pattern)
    (c maxTries : Nat) (unique lower : Bool)
    (hpool : pool ≠ []) (hdoms : domains ≠ []) (hpats : pats ≠ [])
    (step : ∀ rows seen pe pat d a b, pe ∈ pool → pat ∈ pats → d ∈ domains →
      a < 100 → b < 1000 → J rows seen →
      ∀ username, username = sanitizeUsername lower (renderWith pat pe.firstKey pe.lastKey a b) →
      3 ≤ username.length →
      ∀ email, email = username ++ '@' :: d.map Char.toLower →
      ¬(unique = true ∧ email ∈ seen) →
      J (rows ++ [⟨pe.display, email, d.map Char.toLower, pat, username⟩])
        (if unique then email :: seen else seen)) :
    ∀ fuel tries rows seen rng, J rows seen →
      ∃ seen', J (genLoop pool domains pats c maxTries unique lower fuel tries rows seen rng).1 seen' := by
  intro fuel
  induction fuel with
  | zero =>
    intro tries rows seen rng hJ
    exact ⟨seen, hJ⟩
  | succ n ih =>
    intro tries rows seen rng hJ
    rw [genLoop]
    by_cases hg : rows.length < c ∧ tries < maxTries
    · rw [if_pos hg]
      rcases hpe : rng.choice pool with ⟨pe, r1⟩
      rcases hpat : r1.choice pats with ⟨pat, r2⟩
      rcases hren : renderPattern pat pe.firstKey pe.lastKey r2 with ⟨u0, r3⟩
      simp only [hpe, hpat, hren]
      by_cases hlen : usernameRejected (sanitizeUsername lower u0) = true
      · rw [if_pos hlen]
        exact ih _ _ _ _ hJ
      · rw [if_neg hlen]
        rcases hd : r3.choice domains with ⟨d, r4⟩
        simp only [hd]
        by_cases hdup :
            (unique && decide ((sanitizeUsername lower u0 ++ '@' :: d.map Char.toLower) ∈ seen)) = true
        · rw [if_pos hdup]
          exact ih _ _ _ _ hJ
        · rw [if_neg hdup]
          apply ih
          have hren2 := renderPattern_eq pat pe.firstKey pe.lastKey r2
          rw [hren] at hren2
          have hu0 : u0 = renderWith pat pe.firstKey pe.lastKey
              (r2.stream r2.idx % 100) (r2.stream (r2.idx + 1) % 1000) :=
            congrArg Prod.fst hren2
          have ha : r2.stream r2.idx % 100 < 100 := Nat.mod_lt _ (by norm_num)
          have hb : r2.stream (r2.idx + 1) % 1000 < 1000 := Nat.mod_lt _ (by norm_num)
          exact step rows seen pe pat d _ _ (choice_mem hpe hpool)
            (choice_mem hpat hpats) (choice_mem hd hdoms) ha hb hJ
            (sanitizeUsername lower u0) (by rw [hu0]) (le_of_not_rejected hlen)
            (sanitizeUsername lower u0 ++ '@' :: d.map Char.toLower) rfl
            (by
              intro hand
              apply hdup
              rw [Bool.and_eq_true, hand.1]
              exact ⟨rfl, decide_eq_true hand.2⟩)
    · rw [if_neg hg]
      exact ⟨seen, hJ⟩

/-- The loop never accumulates more than `c` rows. -/
lemma genLoop_length_le (pool : List PoolEntry) (domains : List (List Char))
    (pats : List Pattern) (c maxTries : Nat) (unique lower : Bool) :
    ∀ fuel tries rows seen rng, rows.length ≤ c →
      (genLoop pool domains pats c maxTries unique lower fuel tries rows seen rng).1.length ≤ c := by
  intro fuel
  induction fuel with
  | zero =>
    intro tries rows seen rng hle
    exact hle
  | succ n ih =>
    intro tries rows seen rng hle
    rw [genLoop]
    by_cases hg : rows.length < c ∧ tries < maxTries
    · rw [if_pos hg]
      rcases hpe : rng.choice pool with ⟨pe, r1⟩
      rcases hpat : r1.choice pats with ⟨pat, r2⟩
      rcases hren : renderPattern pat pe.firstKey pe.lastKey r2 with ⟨u0, r3⟩
      simp only [hpe, hpat, hren]
      by_cases hlen : usernameRejected (sanitizeUsername lower u0) = true
      · rw [if_pos hlen]
        exact ih _ _ _ _ hle
      · rw [if_neg hlen]
        rcases hd : r3.choice domains with ⟨d, r4⟩
        simp only [hd]
        by_cases hdup :
            (unique && decide ((sanitizeUsername lower u0 ++ '@' :: d.map Char.toLower) ∈ seen)) = true
        · rw [if_pos hdup]
          exact ih _ _ _ _ hle
        · rw [if_neg hdup]
          apply ih
          rw [List.length_append, List.length_cons, List.length_nil]
          omega
    · rw [if_neg hg]
      exact hle

/-- The loop executes at most `maxTries` iterations: the final value of the
`tries` counter never exceeds `maxTries`. -/
lemma genLoop_tries_le (pool : List PoolEntry) (domains : List (List Char))
    (pats : List Pattern) (c maxTries : Nat) (unique lower : Bool) :
    ∀ fuel tries rows seen rng, tries ≤ maxTries →
      (genLoop pool domains pats c maxTries unique lower fuel tries rows seen rng).2 ≤ maxTries := by
  intro fuel
  induction fuel with
  | zero =>
    intro tries rows seen rng hle
    exact hle
  | succ n ih =>
    intro tries rows seen rng hle
    rw [genLoop]
    by_cases hg : rows.length < c ∧ tries < maxTries
    · rw [if_pos hg]
      rcases hpe : rng.choice pool with ⟨pe, r1⟩
      rcases hpat : r1.choice pats with ⟨pat, r2⟩
      rcases hren : renderPattern pat pe.firstKey pe.lastKey r2 with ⟨u0, r3⟩
      simp only [hpe, hpat, hren]
      by_cases hlen : usernameRejected (sanitizeUsername lower u0) = true
      · rw [if_pos hlen]
        exact ih _ _ _ _ (by omega)
      · rw [if_neg hlen]
        rcases hd : r3.choice domains with ⟨d, r4⟩
        simp only [hd]
        by_cases hdup :
            (unique && decide ((sanitizeUsername lower u0 ++ '@' :: d.map Char.toLower) ∈ seen)) = true
        · rw [if_pos hdup]
          exact ih _ _ _ _ (by omega)
        · rw [if_neg hdup]
          exact ih _ _ _ _ (by omega)
    · rw [if_neg hg]
      exact hle

/-- With uniqueness off and a pool/pattern combination whose sanitized
usernames always survive, every iteration appends a row, so the loop
returns exactly `min c (rows + remaining tries)` rows. -/
lemma genLoop_total (pool : List PoolEntry) (domains : List (List Char))
    (pats : List Pattern) (c maxTries : Nat) (lower : Bool)
    (hpool : pool ≠ []) (hpats : pats ≠ [])
    (hpass : ∀ pe ∈ pool, ∀ p ∈ pats, ∀ a b : Nat,
      3 ≤ (sanitizeUsername lower (renderWith p pe.firstKey pe.lastKey a b)).length) :
    ∀ fuel tries rows seen rng, rows.length ≤ c → maxTries ≤ tries + fuel →
      (genLoop pool domains pats c maxTries false lower fuel tries rows seen rng).1.length
        = min c (rows.length + (maxTries - tries)) := by
  intro fuel
  induction fuel with
  | zero =>
    intro tries rows seen rng hle hfuel
    show rows.length = min c (rows.length + (maxTries - tries))
    rw [Nat.min_def]
    split_ifs <;> omega
  | succ n ih =>
    intro tries rows seen rng hle hfuel
    rw [genLoop]
    by_cases hg : rows.length < c ∧ tries < maxTries
    · rw [if_pos hg]
      rcases hpe : rng.choice pool with ⟨pe, r1⟩
      rcases hpat : r1.choice pats with ⟨pat, r2⟩
      rcases hren : renderPattern pat pe.firstKey pe.lastKey r2 with ⟨u0, r3⟩
      simp only [hpe, hpat, hren]
      have hren2 := renderPattern_eq pat pe.firstKey pe.lastKey r2
      rw [hren] at hren2
      have hu0 : u0 = renderWith pat pe.firstKey pe.lastKey
          (r2.stream r2.idx % 100) (r2.stream (r2.idx + 1) % 1000) :=
        congrArg Prod.fst hren2
      have h3 := hpass pe (choice_mem hpe hpool) pat (choice_mem hpat hpats)
        (r2.stream r2.idx % 100) (r2.stream (r2.idx + 1) % 1000)
      rw [← hu0] at h3
      rw [if_neg (not_rejected_of_le h3)]
      rcases hd : r3.choice domains with ⟨d, r4⟩
      simp only [hd]
      rw [if_neg (by simp)]
      have hlen1 : (rows ++ [Row.mk pe.display
          (sanitizeUsername lower u0 ++ '@' :: d.map Char.toLower)
          (d.map Char.toLower) pat (sanitizeUsername lower u0)]).length ≤ c := by
        rw [List.length_append, List.length_cons, List.length_nil]
        omega
      have ih' := ih (tries + 1) _ (if false = true
          then (sanitizeUsername lower u0 ++ '@' :: d.map Char.toLower) :: seen
          else seen) r4 hlen1 (by omega)
      rw [ih', List.length_append, List.length_cons, List.length_nil]
      have harith : rows.length + 1 + (maxTries - (tries + 1))
          = rows.length + (maxTries - tries) := by omega
      rw [harith]
    · rw [if_neg hg]
      show rows.length = min c (rows.length + (maxTries - tries))
      rw [Nat.min_def]
      split_ifs <;> omega

lemma genLoop_shape {pool : List PoolEntry} {domains : List (List Char)}
    {pats : List Pattern} {c maxTries : Nat} {unique lower : Bool}
    (hpool : pool ≠ []) (hdoms : domains ≠ []) (hpats : pats ≠ [])
    (fuel : Nat) (rng : Rng) :
    ∀ r ∈ (genLoop pool domains pats c maxTries unique lower fuel 0 [] [] rng).1,
      RowShape pool domains pats lower r := by
  have h := genLoop_invariant
    (fun rows _ => ∀ r ∈ rows, RowShape pool domains pats lower r)
    pool domains pats c maxTries unique lower hpool hdoms hpats
    (by
      intro rows seen pe pat d a b hpe hpat hd ha hb hJ username husr h3 email hemail hdup
      intro r hr
      rcases List.mem_append.mp hr with hold | hnew
      · exact hJ r hold
      · rcases List.mem_singleton.mp hnew with rfl
        refine ⟨pe, hpe, pat, hpat, d, hd, a, b, ha, hb, husr, h3, rfl, ?_, rfl, rfl⟩
        rw [hemail])
    fuel 0 [] [] rng (by intro r hr; exact absurd hr (List.not_mem_nil r))
  obtain ⟨seen', hs⟩ := h
  exact hs

/-- With `unique` on, the emails already produced are tracked in `seen`, so
the output emails are pairwise distinct. -/
lemma genLoop_nodup {pool : List PoolEntry} {domains : List (List Char)}
    {pats : List Pattern} {c maxTries : Nat} {lower : Bool}
    (hpool : pool ≠ []) (hdoms : domains ≠ []) (hpats : pats ≠ [])
    (fuel : Nat) (rng : Rng) :
    ((genLoop pool domains pats c maxTries true lower fuel 0 [] [] rng).1.map
      Row.email).Nodup := by
  have h := genLoop_invariant
    (fun rows seen => (rows.map Row.email).Nodup ∧ ∀ r ∈ rows, r.email ∈ seen)
    pool domains pats c maxTries true lower hpool hdoms hpats
    (by
      intro rows seen pe pat d a b hpe hpat hd ha hb hJ username husr h3 email hemail hdup
      have hnotseen : email ∉ seen := fun hmem => hdup ⟨rfl, hmem⟩
      constructor
      · rw [List.map_append]
        apply List.Nodup.append hJ.1 (by simp)
        intro x hx hx2
        simp only [List.map_cons, List.map_nil, List.mem_singleton] at hx2
        rcases List.mem_map.mp hx with ⟨r, hr, hrx⟩
        apply hnotseen
        rw [← hx2, ← hrx]
        exact hJ.2 r hr
      · intro r hr
        rw [if_pos rfl]
        rcases List.mem_append.mp hr with hold | hnew
        · exact List.mem_cons_of_mem _ (hJ.2 r hold)
        · rcases List.mem_singleton.mp hnew with rfl
          exact List.mem_cons_self _ _)
    fuel 0 [] [] rng (by constructor <;> simp)
  obtain ⟨seen', hs⟩ := h
  exact hs.1

/-- Inversion for a successful `generate_emails` call: every validation
passed and the result is exactly the loop's output with the under-fulfilment
flag. -/
lemma generateEmails_ok {names domains : List (List Char)} {pats : List Pattern}
    {count : Int} {unique lower : Bool} {rng : Rng} {g : GenResult}
    (h : generateEmails names domains pats count unique lower rng = .ok g) :
    0 < count ∧ count ≤ 200000 ∧ names ≠ [] ∧ domains ≠ [] ∧
      (∀ d ∈ domains, domainValid d = true) ∧ pats ≠ [] ∧ buildPool names ≠ [] ∧
      g.rows = (genLoop (buildPool names) domains pats count.toNat
        (count.toNat * (if unique then 10 else 2)) unique lower
        (count.toNat * (if unique then 10 else 2)) 0 [] [] rng).1 ∧
      g.underfilled = decide (g.rows.length < count.toNat) := by
  unfold generateEmails at h
  by_cases h1 : count ≤ 0 ∨ 200000 < count
  · rw [if_pos h1] at h
    exact absurd h (by simp)
  rw [if_neg h1] at h
  by_cases h2 : names.isEmpty
  · rw [if_pos h2] at h
    exact absurd h (by simp)
  rw [if_neg h2] at h
  by_cases h3 : domains.isEmpty
  · rw [if_pos h3] at h
    exact absurd h (by simp)
  rw [if_neg h3] at h
  by_cases h4 : (domains.any fun d => !domainValid d) = true
  · rw [if_pos h4] at h
    exact absurd h (by simp)
  rw [if_neg h4] at h
  by_cases h5 : pats.isEmpty
  · rw [if_pos h5] at h
    exact absurd h (by simp)
  rw [if_neg h5] at h
  by_cases h6 : (buildPool names).isEmpty
  · rw [if_pos h6] at h
    exact absurd h (by simp)
  rw [if_neg h6] at h
  push_neg at h1
  have hg := (Except.ok.inj h).symm
  have hvalid : ∀ d ∈ domains, domainValid d = true := by
    intro d hd
    by_contra hbad
    apply h4
    rw [List.any_eq_true]
    exact ⟨d, hd, by simp [hbad]⟩
  have hrows : g.rows = (genLoop (buildPool names) domains pats count.toNat
      (count.toNat * (if unique then 10 else 2)) unique lower
      (count.toNat * (if unique then 10 else 2)) 0 [] [] rng).1 := by
    rw [hg]
  have hflag : g.underfilled = decide (g.rows.length < count.toNat) := by
    rw [hg]
  refine ⟨by omega, by omega, ?_, ?_, hvalid, ?_, ?_, hrows, hflag⟩
  · rw [← List.isEmpty_eq_false]
    exact Bool.of_not_eq_true h2
  · rw [← List.isEmpty_eq_false]
    exact Bool.of_not_eq_true h3
  · rw [← List.isEmpty_eq_false]
    exact Bool.of_not_eq_true h5
  · rw [← List.isEmpty_eq_false]
    exact Bool.of_not_eq_true h6

lemma domainValid_all_domainChar {d : List Char} (h : domainValid d = true) :
    ∀ c ∈ d, isDomainChar c = true := by
  rw [domainValid_iff] at h
  obtain ⟨u, v, rfl, _, hu, hv, _⟩ := h
  intro c hc
  rcases List.mem_append.mp hc with hcu | hcv
  · exact hu c hcu
  · rcases List.mem_cons.mp hcv with rfl | hcv
    · decide
    · have ha := hv c hcv
      rw [isDomainChar, ha]
      rfl

lemma nodup_subset_length {l L : List (List Char)} (hn : l.Nodup)
    (hsub : ∀ x ∈ l, x ∈ L) : l.length ≤ L.length := by
  have h1 : l.toFinset.card = l.length := List.toFinset_card_of_nodup hn
  have h2 : l.toFinset ⊆ L.toFinset := by
    intro x hx
    rw [List.mem_toFinset] at hx ⊢
    exact hsub x hx
  have h3 := Finset.card_le_card h2
  have h4 := List.toFinset_card_le (l := L)
  omega

/-! ### Claim theorems -/

/-- C1 (counterexample): the claim's example that `"a.b"` is accepted is
false — `{2,}` requires at least two letters after the final dot, so the
regex rejects `"a.b"`, and a batch whose domain list contains it aborts. -/
theorem domain_a_dot_b_rejected :
    domainValid ("a.b").data = false ∧
    generateEmails [("ana son").data] [("a.b").data] [Pattern.firstLast] 1 true true
      ⟨fun _ => 0, 0⟩ = .error .invalidDomains :=
  ⟨by decide, by rfl⟩

/-- C1 (amended): domain validation accepts exactly the lines fully matching
`[A-Za-z0-9.-]+\.[A-Za-z]{2,}`: "example.org" is accepted; "bad domain",
"nodot" and also "a.b" are rejected (the `{2,}` quantifier needs two
letters); any invalid line in the supplied domain list aborts the whole
batch with no rows generated. -/
theorem domain_validation_exact_regex :
    (∀ l : List Char, domainValid l = true ↔ DomainMatches l) ∧
    domainValid ("example.org").data = true ∧
    domainValid ("bad domain").data = false ∧
    domainValid ("nodot").data = false ∧
    domainValid ("a.b").data = false ∧
    (∀ names domains pats count unique lower rng (d : List Char),
      d ∈ domains → domainValid d = false →
      ∃ e, generateEmails names domains pats count unique lower rng = .error e) := by
  refine ⟨domainValid_iff, by decide, by decide, by decide, by decide, ?_⟩
  intro names domains pats count unique lower rng d hd hbad
  cases hres : generateEmails names domains pats count unique lower rng with
  | error e => exact ⟨e, rfl⟩
  | ok g =>
    obtain ⟨_, _, _, _, hvalid, _⟩ := generateEmails_ok hres
    rw [hvalid d hd] at hbad
    cases hbad

theorem domain_validation_exact_regex_witness :
    ∃ e, generateEmails [("ana son").data] [("a.b").data] [Pattern.firstLast] 1 true true
      ⟨fun _ => 0, 0⟩ = .error e :=
  domain_validation_exact_regex.2.2.2.2.2 _ _ _ 1 true true ⟨fun _ => 0, 0⟩
    ("a.b").data (by decide) (by decide)

/-- C2: with a non-empty seed, the batch is a pure function of the seed text
and the inputs — the ambient entropy source is ignored, so two runs with the
same seed, pool, domains, patterns, count and flags produce identical rows
in identical order. -/
theorem generate_deterministic_for_seed :
    ∀ (seedStream : List Char → Nat → Nat) (entropy1 entropy2 : Nat → Nat)
      (seed : List Char) names domains pats count unique lower,
      trimWs seed ≠ [] →
      generateEmails names domains pats count unique lower
          (rngFromSeed seedStream entropy1 seed)
        = generateEmails names domains pats count unique lower
          (rngFromSeed seedStream entropy2 seed) := by
  intro seedStream e1 e2 seed names domains pats count unique lower hseed
  have hne : ¬ (trimWs seed).isEmpty = true := by
    simp only [List.isEmpty_eq_true]
    exact hseed
  have heq : rngFromSeed seedStream e1 seed = rngFromSeed seedStream e2 seed := by
    unfold rngFromSeed
    rw [if_neg hne, if_neg hne]
  rw [heq]

theorem generate_deterministic_for_seed_witness :
    generateEmails [("ana son").data] [("example.org").data] [Pattern.firstLast] 1 true true
        (rngFromSeed (fun _ _ => 0) (fun i => i) ("s1").data)
      = generateEmails [("ana son").data] [("example.org").data] [Pattern.firstLast] 1 true true
        (rngFromSeed (fun _ _ => 0) (fun i => i + 7) ("s1").data) :=
  generate_deterministic_for_seed (fun _ _ => 0) (fun i => i) (fun i => i + 7)
    ("s1").data _ _ _ 1 true true (by decide)

/-- C4: the sanitizer lowercases, strips disallowed characters, collapses
separator runs to a single dot and trims separators, in that order:
"Mi--a..Lin" becomes "mi.a.lin", "@@@" is emptied and rejected, and a
candidate is rejected exactly when the result is empty or shorter than
three characters. -/
theorem sanitizer_pipeline :
    sanitizeUsername true ("Mi--a..Lin").data = ("mi.a.lin").data ∧
    sanitizeUsername true ("@@@").data = [] ∧
    usernameRejected (sanitizeUsername true ("@@@").data) = true ∧
    (∀ u : List Char, usernameRejected u = true ↔ (u = [] ∨ u.length < 3)) := by
  refine ⟨by decide, by decide, by decide, ?_⟩
  intro u
  simp only [usernameRejected, Bool.or_eq_true, List.isEmpty_eq_true,
    decide_eq_true_eq]

/-- C8: every render consumes exactly two fresh draws, in order — first
`randint(0, 99)` (the `n2` value), then `randint(0, 999)` (the `n3` value) —
unconditionally, for every pattern; the stream cursor advances by exactly
two whatever the pattern uses. -/
theorem render_draw_contract :
    ∀ (p : Pattern) (first lastN : List Char) (r : Rng), ∃ a b : Nat,
      a < 100 ∧ b < 1000 ∧
      a = r.stream r.idx % 100 ∧ b = r.stream (r.idx + 1) % 1000 ∧
      r.randint 0 99 = (a, ⟨r.stream, r.idx + 1⟩) ∧
      Rng.randint ⟨r.stream, r.idx + 1⟩ 0 999 = (b, ⟨r.stream, r.idx + 2⟩) ∧
      renderPattern p first lastN r
        = (renderWith p first lastN a b, ⟨r.stream, r.idx + 2⟩) := by
  intro p first lastN r
  refine ⟨r.stream r.idx % 100, r.stream (r.idx + 1) % 1000,
    Nat.mod_lt _ (by norm_num), Nat.mod_lt _ (by norm_num), rfl, rfl, ?_, ?_, ?_⟩
  · simp [Rng.randint, Rng.next]
  · simp [Rng.randint, Rng.next]
  · exact renderPattern_eq p first lastN r

/-- C10: with lowercasing on, the sanitization pipeline is idempotent on its
accepted outputs: an accepted username has no run of two or more separators,
neither starts nor ends with a separator, and re-applying the pipeline
returns it unchanged. -/
theorem sanitizer_idempotent :
    ∀ l : List Char, 3 ≤ (sanitizeUsername true l).length →
      NoSepRun (sanitizeUsername true l) ∧
      (∀ x, (sanitizeUsername true l).head? = some x → isSep x = false) ∧
      (∀ x, (sanitizeUsername true l).getLast? = some x → isSep x = false) ∧
      sanitizeUsername true (sanitizeUsername true l) = sanitizeUsername true l := by
  intro l _h
  refine ⟨sanitize_noSepRun true l, ?_, ?_, sanitize_idem true l⟩
  · intro x hx
    exact trimSeps_head hx
  · intro x hx
    exact trimSeps_getLast hx

theorem sanitizer_idempotent_witness :
    NoSepRun (sanitizeUsername true ("Mi--a..Lin").data) ∧
    (∀ x, (sanitizeUsername true ("Mi--a..Lin").data).head? = some x → isSep x = false) ∧
    (∀ x, (sanitizeUsername true ("Mi--a..Lin").data).getLast? = some x → isSep x = false) ∧
    sanitizeUsername true (sanitizeUsername true ("Mi--a..Lin").data)
      = sanitizeUsername true ("Mi--a..Lin").data :=
  sanitizer_idempotent ("Mi--a..Lin").data (by decide)

/-- C3: the attempt loop is bounded: at most
`maxAttempts = targetCount * (10 if unique else 2)` iterations are executed
(the final `tries` counter never exceeds `maxTries`), the loop stops as soon
as `targetCount` rows exist, a successful call never returns more than
`targetCount` rows, and when attempts run out with fewer rows the call still
returns those rows with the under-fulfilment flag instead of failing. -/
theorem bounded_attempt_loop :
    (∀ names domains pats count unique lower rng g,
      generateEmails names domains pats count unique lower rng = .ok g →
        g.rows.length ≤ count.toNat ∧
        g.underfilled = decide (g.rows.length < count.toNat)) ∧
    (∀ pool domains pats c maxTries unique lower fuel tries rows seen rng,
      tries ≤ maxTries →
      (genLoop pool domains pats c maxTries unique lower fuel tries rows seen rng).2
        ≤ maxTries) ∧
    (∀ pool domains pats c maxTries unique lower fuel tries rows seen rng,
      c ≤ rows.length →
      genLoop pool domains pats c maxTries unique lower fuel tries rows seen rng
        = (rows, tries)) := by
  refine ⟨?_, ?_, ?_⟩
  · intro names domains pats count unique lower rng g hok
    obtain ⟨_, _, _, _, _, _, _, hrows, hflag⟩ := generateEmails_ok hok
    refine ⟨?_, hflag⟩
    rw [hrows]
    exact genLoop_length_le _ _ _ _ _ _ _ _ _ _ _ _ (by simp)
  · intro pool domains pats c maxTries unique lower fuel tries rows seen rng h
    exact genLoop_tries_le _ _ _ _ _ _ _ _ _ _ _ _ h
  · intro pool domains pats c maxTries unique lower fuel tries rows seen rng h
    exact genLoop_stop h

theorem bounded_attempt_loop_witness :
    ((GenResult.mk [⟨("ana son").data, ("anason@example.org").data,
        ("example.org").data, Pattern.firstLast, ("anason").data⟩] false).rows.length
      ≤ (1 : Int).toNat ∧
     (GenResult.mk [⟨("ana son").data, ("anason@example.org").data,
        ("example.org").data, Pattern.firstLast, ("anason").data⟩] false).underfilled
      = decide ((GenResult.mk [⟨("ana son").data, ("anason@example.org").data,
        ("example.org").data, Pattern.firstLast, ("anason").data⟩] false).rows.length
          < (1 : Int).toNat)) ∧
    (genLoop [] [] [] 0 5 true true 3 2 [] [] ⟨fun _ => 0, 0⟩).2 ≤ 5 ∧
    genLoop [] [] [] 0 5 true true 3 2 [] [] ⟨fun _ => 0, 0⟩ = ([], 2) :=
  ⟨bounded_attempt_loop.1 [("ana son").data] [("example.org").data]
      [Pattern.firstLast] 1 true true ⟨fun _ => 0, 0⟩ _ (by rfl),
   bounded_attempt_loop.2.1 [] [] [] 0 5 true true 3 2 [] [] ⟨fun _ => 0, 0⟩
      (by decide),
   bounded_attempt_loop.2.2 [] [] [] 0 5 true true 3 2 [] [] ⟨fun _ => 0, 0⟩
      (by decide)⟩

/-- C6: in every output row, the email field equals the username field,
an '@', and the domain field, and the domain field contains no uppercase
characters whatever the lowercase flag and the casing of the supplied
domain lines. -/
theorem row_email_roundtrip :
    ∀ names domains pats count unique lower rng g,
      generateEmails names domains pats count unique lower rng = .ok g →
      ∀ r ∈ g.rows,
        r.email = r.username ++ '@' :: r.domain ∧
        r.domain.all (fun c => !c.isUpper) = true := by
  intro names domains pats count unique lower rng g hok r hr
  obtain ⟨_, _, _, hdoms, _, hpats, hpool, hrows, _⟩ := generateEmails_ok hok
  rw [hrows] at hr
  obtain ⟨pe, _, p, _, d, _, a, b, _, _, husr, _, hdom, hemail, _, _⟩ :=
    genLoop_shape hpool hdoms hpats _ rng r hr
  refine ⟨hemail, ?_⟩
  rw [hdom, List.all_eq_true]
  intro c hc
  rcases List.mem_map.mp hc with ⟨c0, _, hc0⟩
  rw [← hc0, char_toLower_not_upper]
  rfl

theorem row_email_roundtrip_witness :
    ("anason@example.org").data = ("anason").data ++ '@' :: ("example.org").data ∧
    ("example.org").data.all (fun c => !c.isUpper) = true :=
  row_email_roundtrip [("ana son").data] [("example.org").data] [Pattern.firstLast]
    1 true true ⟨fun _ => 0, 0⟩ _ (by rfl)
    ⟨("ana son").data, ("anason@example.org").data, ("example.org").data,
      Pattern.firstLast, ("anason").data⟩ (List.mem_singleton.mpr rfl)

/-- C9: every generated email contains exactly one '@' character: sanitized
usernames consist only of `[a-z0-9._-]` characters, and a validated domain
contains none even after lowercasing. -/
theorem email_single_at :
    ∀ names domains pats count unique lower rng g,
      generateEmails names domains pats count unique lower rng = .ok g →
      ∀ r ∈ g.rows, r.email.count '@' = 1 := by
  intro names domains pats count unique lower rng g hok r hr
  obtain ⟨_, _, _, hdoms, hvalid, hpats, hpool, hrows, _⟩ := generateEmails_ok hok
  rw [hrows] at hr
  obtain ⟨pe, _, p, _, d, hd, a, b, _, _, husr, _, hdom, hemail, _, _⟩ :=
    genLoop_shape hpool hdoms hpats _ rng r hr
  have husername : r.username.count '@' = 0 := by
    rw [List.count_eq_zero]
    intro hmem
    rw [husr] at hmem
    have hall := sanitize_all_allowed lower _ '@' hmem
    exact absurd hall (by decide)
  have hdomcount : r.domain.count '@' = 0 := by
    rw [List.count_eq_zero]
    intro hmem
    rw [hdom] at hmem
    rcases List.mem_map.mp hmem with ⟨c0, hc0, heq⟩
    have hdc := domainValid_all_domainChar (hvalid d hd) c0 hc0
    have hdc2 := isDomainChar_toLower hdc
    rw [heq] at hdc2
    exact absurd hdc2 (by decide)
  rw [hemail, List.count_append, husername, List.count_cons_self, hdomcount]

theorem email_single_at_witness :
    ("anason@example.org").data.count '@' = 1 :=
  email_single_at [("ana son").data] [("example.org").data] [Pattern.firstLast]
    1 true true ⟨fun _ => 0, 0⟩ _ (by rfl)
    ⟨("ana son").data, ("anason@example.org").data, ("example.org").data,
      Pattern.firstLast, ("anason").data⟩ (List.mem_singleton.mpr rfl)

/-- C7: counts 0, -1 and 200001 are rejected while 200000 is accepted; each
validation failure aborts the batch with its own distinct error, generating
no rows and leaving the retained last batch untouched. -/
theorem count_validation :
    (∀ names domains pats unique lower rng,
      generateEmails names domains pats 0 unique lower rng = .error .invalidCount ∧
      generateEmails names domains pats (-1) unique lower rng = .error .invalidCount ∧
      generateEmails names domains pats 200001 unique lower rng
        = .error .invalidCount) ∧
    (∃ g, generateEmails demoNames demoDomains demoPats 200000 true true
      ⟨fun _ => 0, 0⟩ = .ok g) ∧
    (∀ prev e, updateLastRows prev (.error e) = prev) ∧
    (∀ names domains pats count unique lower rng,
      ¬(count ≤ 0 ∨ 200000 < count) → names = [] →
      generateEmails names domains pats count unique lower rng = .error .noNames) ∧
    (∀ names domains pats count unique lower rng,
      ¬(count ≤ 0 ∨ 200000 < count) → names ≠ [] → domains = [] →
      generateEmails names domains pats count unique lower rng = .error .noDomains) ∧
    (∀ names domains pats count unique lower rng,
      ¬(count ≤ 0 ∨ 200000 < count) → names ≠ [] → domains ≠ [] →
      (∀ d ∈ domains, domainValid d = true) → pats = [] →
      generateEmails names domains pats count unique lower rng
        = .error .noPatterns) ∧
    (∀ names domains pats count unique lower rng,
      ¬(count ≤ 0 ∨ 200000 < count) → names ≠ [] → domains ≠ [] →
      (∀ d ∈ domains, domainValid d = true) → pats ≠ [] → buildPool names = [] →
      generateEmails names domains pats count unique lower rng
        = .error .invalidNames) := by
  refine ⟨?_, ⟨_, rfl⟩, ?_, ?_, ?_, ?_, ?_⟩
  · intro names domains pats unique lower rng
    refine ⟨?_, ?_, ?_⟩ <;>
      (unfold generateEmails; rw [if_pos (by norm_num)])
  · intro prev e
    rfl
  · intro names domains pats count unique lower rng h1 h2
    unfold generateEmails
    rw [if_neg h1, if_pos (by rw [h2]; rfl)]
  · intro names domains pats count unique lower rng h1 h2 h3
    unfold generateEmails
    rw [if_neg h1, if_neg (by simp only [List.isEmpty_eq_true]; exact h2),
      if_pos (by rw [h3]; rfl)]
  · intro names domains pats count unique lower rng h1 h2 h3 hvalid h5
    have hany : ¬ (domains.any fun d => !domainValid d) = true := by
      rw [List.any_eq_true]
      rintro ⟨d, hd, hbd⟩
      rw [hvalid d hd] at hbd
      simp at hbd
    unfold generateEmails
    rw [if_neg h1, if_neg (by simp only [List.isEmpty_eq_true]; exact h2),
      if_neg (by simp only [List.isEmpty_eq_true]; exact h3), if_neg hany,
      if_pos (by rw [h5]; rfl)]
  · intro names domains pats count unique lower rng h1 h2 h3 hvalid h5 h6
    have hany : ¬ (domains.any fun d => !domainValid d) = true := by
      rw [List.any_eq_true]
      rintro ⟨d, hd, hbd⟩
      rw [hvalid d hd] at hbd
      simp at hbd
    unfold generateEmails
    rw [if_neg h1, if_neg (by simp only [List.isEmpty_eq_true]; exact h2),
      if_neg (by simp only [List.isEmpty_eq_true]; exact h3), if_neg hany,
      if_neg (by simp only [List.isEmpty_eq_true]; exact h5),
      if_pos (by rw [h6]; rfl)]

theorem count_validation_witness :
    generateEmails [("ana son").data] [("example.org").data] [Pattern.firstLast]
      0 true true ⟨fun _ => 0, 0⟩ = .error .invalidCount ∧
    generateEmails [] [("example.org").data] [Pattern.firstLast]
      5 true true ⟨fun _ => 0, 0⟩ = .error .noNames ∧
    generateEmails [("ana son").data] [] [Pattern.firstLast]
      5 true true ⟨fun _ => 0, 0⟩ = .error .noDomains ∧
    generateEmails [("ana son").data] [("example.org").data] ([] : List Pattern)
      5 true true ⟨fun _ => 0, 0⟩ = .error .noPatterns ∧
    generateEmails [("!!!").data] [("example.org").data] [Pattern.firstLast]
      5 true true ⟨fun _ => 0, 0⟩ = .error .invalidNames :=
  ⟨(count_validation.1 _ _ _ true true ⟨fun _ => 0, 0⟩).1,
   count_validation.2.2.2.1 _ _ _ 5 true true ⟨fun _ => 0, 0⟩ (by decide) rfl,
   count_validation.2.2.2.2.1 _ _ _ 5 true true ⟨fun _ => 0, 0⟩ (by decide)
     (by decide) rfl,
   count_validation.2.2.2.2.2.1 _ _ _ 5 true true ⟨fun _ => 0, 0⟩ (by decide)
     (by decide) (by decide) (by decide) rfl,
   count_validation.2.2.2.2.2.2 _ _ _ 5 true true ⟨fun _ => 0, 0⟩ (by decide)
     (by decide) (by decide) (by decide) (by decide) (by decide)⟩

lemma demo_pool_eq : buildPool demoNames =
    [⟨("ana son").data, ("ana").data, ("son").data⟩,
    ⟨("bel ton").data, ("bel").data, ("ton").data⟩,
    ⟨("cor von").data, ("cor").data, ("von").data⟩,
    ⟨("dia win").data, ("dia").data, ("win").data⟩,
    ⟨("eli xan").data, ("eli").data, ("xan").data⟩,
    ⟨("fay yor").data, ("fay").data, ("yor").data⟩,
    ⟨("gus zed").data, ("gus").data, ("zed").data⟩,
    ⟨("hal que").data, ("hal").data, ("que").data⟩,
    ⟨("ive rom").data, ("ive").data, ("rom").data⟩,
    ⟨("jax kel").data, ("jax").data, ("kel").data⟩] := by
  decide

lemma demo_generate_ok (count : Int) (unique lower : Bool) (rng : Rng)
    (hc : ¬(count ≤ 0 ∨ 200000 < count)) :
    generateEmails demoNames demoDomains demoPats count unique lower rng
      = .ok ⟨(genLoop (buildPool demoNames) demoDomains demoPats count.toNat
          (count.toNat * (if unique then 10 else 2)) unique lower
          (count.toNat * (if unique then 10 else 2)) 0 [] [] rng).1,
        decide ((genLoop (buildPool demoNames) demoDomains demoPats count.toNat
          (count.toNat * (if unique then 10 else 2)) unique lower
          (count.toNat * (if unique then 10 else 2)) 0 [] [] rng).1.length
            < count.toNat)⟩ := by
  unfold generateEmails
  rw [if_neg hc, if_neg (by decide), if_neg (by decide), if_neg (by decide),
    if_neg (by decide), if_neg (by decide)]

lemma demo_shape_email {r : Row}
    (h : RowShape (buildPool demoNames) demoDomains demoPats true r) :
    r.email ∈ demoEmails := by
  obtain ⟨pe, hpe, p, hp, d, hd, a, b, _, _, husr, _, hdom, hemail, _, _⟩ := h
  have hp2 : p = Pattern.firstLast := List.mem_singleton.mp hp
  have hd2 : d = ("example.org").data := List.mem_singleton.mp hd
  subst hp2
  subst hd2
  rw [hemail, husr, hdom]
  have hrw : ∀ fk lk : List Char,
      renderWith Pattern.firstLast fk lk a b = fk ++ lk := fun _ _ => rfl
  rw [hrw]
  rw [demo_pool_eq] at hpe
  fin_cases hpe <;> decide

lemma demo_pass : ∀ pe ∈ buildPool demoNames, ∀ p ∈ demoPats, ∀ a b : Nat,
    3 ≤ (sanitizeUsername true (renderWith p pe.firstKey pe.lastKey a b)).length := by
  intro pe hpe p hp a b
  have hp2 : p = Pattern.firstLast := List.mem_singleton.mp hp
  subst hp2
  have hrw : ∀ fk lk : List Char,
      renderWith Pattern.firstLast fk lk a b = fk ++ lk := fun _ _ => rfl
  rw [hrw]
  rw [demo_pool_eq] at hpe
  fin_cases hpe <;> decide

/-- C5: with the unique flag set the output emails of any batch are pairwise
distinct; on a ten-name, one-pattern, one-domain combination that can
produce only ten distinct emails, requesting 50 unique emails yields at most
ten rows and reports under-fulfilment, while requesting 5 with uniqueness
off yields exactly 5 rows with no under-fulfilment warning. -/
theorem unique_flag_bounds :
    (∀ names domains pats count lower rng,
      match generateEmails names domains pats count true lower rng with
      | .ok g => (g.rows.map Row.email).Nodup
      | .error _ => True) ∧
    (∀ rng, match generateEmails demoNames demoDomains demoPats 50 true true rng with
      | .ok g => g.rows.length ≤ 10 ∧ g.underfilled = true
      | .error _ => False) ∧
    (∀ rng, match generateEmails demoNames demoDomains demoPats 5 false true rng with
      | .ok g => g.rows.length = 5 ∧ g.underfilled = false
      | .error _ => False) := by
  refine ⟨?_, ?_, ?_⟩
  · intro names domains pats count lower rng
    cases hres : generateEmails names domains pats count true lower rng with
    | error e => trivial
    | ok g =>
      obtain ⟨_, _, _, hdoms, _, hpats, hpool, hrows, _⟩ := generateEmails_ok hres
      show (g.rows.map Row.email).Nodup
      rw [hrows]
      exact genLoop_nodup hpool hdoms hpats _ rng
  · intro rng
    rw [demo_generate_ok 50 true true rng (by decide)]
    have hpool : buildPool demoNames ≠ [] := by decide
    have hdoms : demoDomains ≠ [] := by decide
    have hpats : demoPats ≠ [] := by decide
    have hnodup := @genLoop_nodup (buildPool demoNames) demoDomains demoPats
      ((50 : Int).toNat) ((50 : Int).toNat * (if true then 10 else 2)) true
      hpool hdoms hpats ((50 : Int).toNat * (if true then 10 else 2)) rng
    have hshape := @genLoop_shape (buildPool demoNames) demoDomains demoPats
      ((50 : Int).toNat) ((50 : Int).toNat * (if true then 10 else 2)) true true
      hpool hdoms hpats ((50 : Int).toNat * (if true then 10 else 2)) rng
    have hsub : ∀ e ∈ ((genLoop (buildPool demoNames) demoDomains demoPats
        ((50 : Int).toNat) ((50 : Int).toNat * (if true then 10 else 2)) true true
        ((50 : Int).toNat * (if true then 10 else 2)) 0 [] [] rng).1.map Row.email),
        e ∈ demoEmails := by
      intro e he
      rcases List.mem_map.mp he with ⟨r, hr, hre⟩
      rw [← hre]
      exact demo_shape_email (hshape r hr)
    have hlen := nodup_subset_length hnodup hsub
    rw [List.length_map] at hlen
    have h10 : demoEmails.length = 10 := by decide
    rw [h10] at hlen
    refine ⟨hlen, ?_⟩
    exact decide_eq_true (by
      show (genLoop (buildPool demoNames) demoDomains demoPats ((50 : Int).toNat)
        ((50 : Int).toNat * (if true then 10 else 2)) true true
        ((50 : Int).toNat * (if true then 10 else 2)) 0 [] [] rng).1.length
          < (50 : Int).toNat
      have h50 : ((50 : Int)).toNat = 50 := rfl
      omega)
  · intro rng
    rw [demo_generate_ok 5 false true rng (by decide)]
    have hpool : buildPool demoNames ≠ [] := by decide
    have hpats : demoPats ≠ [] := by decide
    have htot := genLoop_total (buildPool demoNames) demoDomains demoPats
      ((5 : Int).toNat) ((5 : Int).toNat * (if false then 10 else 2)) true
      hpool hpats demo_pass ((5 : Int).toNat * (if false then 10 else 2)) 0 [] [] rng
      (by decide) (by decide)
    have h5 : (genLoop (buildPool demoNames) demoDomains demoPats ((5 : Int).toNat)
        ((5 : Int).toNat * (if false then 10 else 2)) false true
        ((5 : Int).toNat * (if false then 10 else 2)) 0 [] [] rng).1.length = 5 :=
      htot.trans (by decide)
    exact ⟨h5, by simp only [h5]; rfl⟩

end EmailGen
